import Mathlib

set_option maxHeartbeats 1000000

/-!
Shallow embedding of the specalign example repository's evaluation-summary and
assertion-refinement pipeline (scripts/generate-summary.js,
scripts/extract-failures.js, scripts/refine-assertions.js,
scripts/generate-analysis-html.js).  Document text is modelled as `List Char`;
JSON values that may be absent are modelled with `Option`.
-/

/-- JS `\s` character class (ECMAScript WhiteSpace plus LineTerminator),
used by the regexes `\n(?=-\s+vars:)`, `/\s+/g`, `^(\s*value:\s*)(.+)$`
and by `String.prototype.trim`. -/
def isWs (c : Char) : Bool :=
  c = ' ' || c = '\t' || c = '\n' || c = '\r' ||
  c.val = 0x0b || c.val = 0x0c || c.val = 0xa0 || c.val = 0x1680 ||
  (0x2000 ≤ c.val && c.val ≤ 0x200a) ||
  c.val = 0x2028 || c.val = 0x2029 || c.val = 0x202f || c.val = 0x205f ||
  c.val = 0x3000 || c.val = 0xfeff

/-- The single-quote character, written via its code point. -/
def sqc : Char := Char.ofNat 39

/-- Lookahead tail of the record-marker regex: the literal `vars:`. -/
def startsVars : List Char → Bool
  | c1 :: c2 :: c3 :: c4 :: c5 :: _ =>
    c1 = 'v' && c2 = 'a' && c3 = 'r' && c4 = 's' && c5 = ':'
  | _ => false

/-- After the dash and first whitespace of `-\s+vars:`: skip further
whitespace, then require the literal `vars:`. -/
def afterWs : List Char → Bool
  | [] => false
  | c :: rest => if isWs c then afterWs rest else startsVars (c :: rest)

/-- The lookahead `(?=-\s+vars:)` of the block-split regex
`/\n(?=-\s+vars:)/` used by loadYAML and patchYaml. -/
def varsLookahead : List Char → Bool
  | [] => false
  | [_] => false
  | c1 :: c2 :: rest => c1 = '-' && isWs c2 && afterWs rest

/-- `s.split(...)` where the separator is a `'\n'` whose remaining suffix
satisfies `p`.  With `p := varsLookahead` this is the JS split
`s.split(/\n(?=-\s+vars:)/)`; with `p := fun _ => true` it is
`s.split('\n')`.  Like the JS split, it never returns the empty list. -/
def splitNl (p : List Char → Bool) : List Char → List (List Char)
  | [] => [[]]
  | c :: rest =>
    if c = '\n' && p rest then
      [] :: splitNl p rest
    else
      match splitNl p rest with
      | [] => [[c]]
      | b :: bs => (c :: b) :: bs

/-- `parts.join('\n')` in JS. -/
def joinNl : List (List Char) → List Char
  | [] => []
  | [b] => b
  | b :: bs => b ++ '\n' :: joinNl bs

theorem splitNl_ne_nil (p : List Char → Bool) (cs : List Char) : splitNl p cs ≠ [] := by
  induction cs with
  | nil => simp [splitNl]
  | cons c rest ih =>
    simp only [splitNl]
    split
    · simp
    · cases h : splitNl p rest with
      | nil => exact absurd h ih
      | cons b bs => simp

theorem joinNl_cons (b : List Char) (l : List (List Char)) (h : l ≠ []) :
    joinNl (b :: l) = b ++ '\n' :: joinNl l := by
  cases l with
  | nil => exact absurd rfl h
  | cons x xs => rfl

/-- Splitting on separator newlines and re-joining with `'\n'` reconstructs
the original character sequence exactly. -/
theorem joinNl_splitNl (p : List Char → Bool) (cs : List Char) :
    joinNl (splitNl p cs) = cs := by
  induction cs with
  | nil => rfl
  | cons c rest ih =>
    simp only [splitNl]
    split
    · rename_i hsplit
      rw [joinNl_cons _ _ (splitNl_ne_nil p rest), ih]
      simp only [Bool.and_eq_true, decide_eq_true_eq] at hsplit
      simp [hsplit.1]
    · cases h : splitNl p rest with
      | nil => exact absurd h (splitNl_ne_nil p rest)
      | cons b bs =>
        rw [h] at ih
        cases bs with
        | nil =>
          simpa [joinNl] using ih
        | cons b2 bs2 =>
          have h1 : joinNl ((c :: b) :: b2 :: bs2) = (c :: b) ++ '\n' :: joinNl (b2 :: bs2) := rfl
          have h2 : joinNl (b :: b2 :: bs2) = b ++ '\n' :: joinNl (b2 :: bs2) := rfl
          rw [h1]
          rw [h2] at ih
          simpa using ih

/-- Decomposition of the first split segment: either there was no separator
and the whole input is the single segment, or the input is the first segment
followed by a separator newline whose suffix satisfies `p`. -/
theorem splitNl_head_cases (p : List Char → Bool) :
    ∀ (cs b : List Char) (bs : List (List Char)), splitNl p cs = b :: bs →
      (bs = [] ∧ cs = b) ∨
      (∃ r, cs = b ++ '\n' :: r ∧ p r = true ∧ splitNl p r = bs) := by
  intro cs
  induction cs with
  | nil =>
    intro b bs h
    simp only [splitNl] at h
    cases h
    exact Or.inl ⟨rfl, rfl⟩
  | cons c rest ih =>
    intro b bs h
    simp only [splitNl] at h
    split at h
    · rename_i hsplit
      simp only [Bool.and_eq_true, decide_eq_true_eq] at hsplit
      cases h
      exact Or.inr ⟨rest, by simp [hsplit.1], hsplit.2, rfl⟩
    · rename_i hnot
      cases hrest : splitNl p rest with
      | nil => exact absurd hrest (splitNl_ne_nil p rest)
      | cons b' bs' =>
        rw [hrest] at h
        rw [List.cons.injEq] at h
        obtain ⟨hb, hbs⟩ := h
        subst hb
        subst hbs
        rcases ih b' bs' hrest with ⟨hbs, hcs⟩ | ⟨r, hcs, hpr, hsp⟩
        · exact Or.inl ⟨hbs, by rw [hcs]⟩
        · exact Or.inr ⟨r, by rw [hcs]; rfl, hpr, hsp⟩

theorem startsVars_append_of (y z : List Char) (h : startsVars y = true) :
    startsVars (y ++ z) = true := by
  match y with
  | c1 :: c2 :: c3 :: c4 :: c5 :: t => simpa [startsVars] using h
  | [] | [_] | [_, _] | [_, _, _] | [_, _, _, _] => simp [startsVars] at h

theorem startsVars_pos1 (c1 : Char) (l : List Char) (hc : ¬ c1 = 'v') :
    startsVars (c1 :: l) = false := by
  match l with
  | c2 :: c3 :: c4 :: c5 :: t => simp [startsVars, hc]
  | [] | [_] | [_, _] | [_, _, _] => simp [startsVars]

theorem startsVars_pos2 (c1 c2 : Char) (l : List Char) (hc : ¬ c2 = 'a') :
    startsVars (c1 :: c2 :: l) = false := by
  match l with
  | c3 :: c4 :: c5 :: t => simp [startsVars, hc]
  | [] | [_] | [_, _] => simp [startsVars]

theorem startsVars_pos3 (c1 c2 c3 : Char) (l : List Char) (hc : ¬ c3 = 'r') :
    startsVars (c1 :: c2 :: c3 :: l) = false := by
  match l with
  | c4 :: c5 :: t => simp [startsVars, hc]
  | [] | [_] => simp [startsVars]

theorem startsVars_pos4 (c1 c2 c3 c4 : Char) (l : List Char) (hc : ¬ c4 = 's') :
    startsVars (c1 :: c2 :: c3 :: c4 :: l) = false := by
  match l with
  | c5 :: t => simp [startsVars, hc]
  | [] => simp [startsVars]

theorem startsVars_pos5 (c1 c2 c3 c4 c5 : Char) (l : List Char) (hc : ¬ c5 = ':') :
    startsVars (c1 :: c2 :: c3 :: c4 :: c5 :: l) = false := by
  simp [startsVars, hc]

theorem startsVars_of_append_nl (y r : List Char) (h : startsVars (y ++ '\n' :: r) = true) :
    startsVars y = true := by
  match y with
  | c1 :: c2 :: c3 :: c4 :: c5 :: t => simpa [startsVars] using h
  | [] =>
    rw [List.nil_append, startsVars_pos1 _ _ (by decide)] at h
    exact absurd h (by decide)
  | [c1] =>
    rw [List.cons_append, List.nil_append, startsVars_pos2 _ _ _ (by decide)] at h
    exact absurd h (by decide)
  | [c1, c2] =>
    rw [List.cons_append, List.cons_append, List.nil_append,
      startsVars_pos3 _ _ _ _ (by decide)] at h
    exact absurd h (by decide)
  | [c1, c2, c3] =>
    rw [List.cons_append, List.cons_append, List.cons_append, List.nil_append,
      startsVars_pos4 _ _ _ _ _ (by decide)] at h
    exact absurd h (by decide)
  | [c1, c2, c3, c4] =>
    rw [List.cons_append, List.cons_append, List.cons_append, List.cons_append,
      List.nil_append, startsVars_pos5 _ _ _ _ _ _ (by decide)] at h
    exact absurd h (by decide)

theorem afterWs_cons_ws (c : Char) (l : List Char) (h : isWs c = true) :
    afterWs (c :: l) = afterWs l := by
  simp [afterWs, h]

theorem afterWs_cons_not_ws (c : Char) (l : List Char) (h : isWs c = false) :
    afterWs (c :: l) = startsVars (c :: l) := by
  simp [afterWs, h]

theorem afterWs_append_of (x z : List Char) (h : afterWs x = true) :
    afterWs (x ++ z) = true := by
  induction x with
  | nil => simp [afterWs] at h
  | cons c x' ih =>
    rw [List.cons_append]
    by_cases hws : isWs c = true
    · rw [afterWs_cons_ws _ _ hws] at h ⊢
      exact ih h
    · rw [Bool.not_eq_true] at hws
      rw [afterWs_cons_not_ws _ _ hws] at h ⊢
      exact startsVars_append_of _ _ h

theorem varsLookahead_shape (r : List Char) (h : varsLookahead r = true) :
    ∃ c rest, r = '-' :: c :: rest ∧ isWs c = true ∧ afterWs rest = true := by
  match r with
  | [] => simp [varsLookahead] at h
  | [c1] => simp [varsLookahead] at h
  | c1 :: c2 :: rest =>
    simp only [varsLookahead, Bool.and_eq_true, decide_eq_true_eq] at h
    exact ⟨c2, rest, by rw [h.1.1], h.1.2, h.2⟩

theorem afterWs_of_append_nl (x r : List Char)
    (h : afterWs (x ++ '\n' :: r) = true) (hr : varsLookahead r = true) :
    afterWs x = true := by
  induction x with
  | nil =>
    exfalso
    obtain ⟨c, rest, hreq, _, _⟩ := varsLookahead_shape r hr
    rw [List.nil_append, afterWs_cons_ws _ _ (by decide), hreq,
      afterWs_cons_not_ws _ _ (by decide), startsVars_pos1 _ _ (by decide)] at h
    exact absurd h (by decide)
  | cons c x' ih =>
    rw [List.cons_append] at h
    by_cases hws : isWs c = true
    · rw [afterWs_cons_ws _ _ hws] at h ⊢
      exact ih h
    · rw [Bool.not_eq_true] at hws
      rw [afterWs_cons_not_ws _ _ hws] at h ⊢
      exact startsVars_of_append_nl _ _ h

theorem varsLookahead_append_of (b z : List Char) (h : varsLookahead b = true) :
    varsLookahead (b ++ z) = true := by
  obtain ⟨c, rest, hreq, hws, haw⟩ := varsLookahead_shape b h
  subst hreq
  simp only [List.cons_append, varsLookahead, Bool.and_eq_true, decide_eq_true_eq]
  exact ⟨⟨by trivial, hws⟩, afterWs_append_of _ _ haw⟩

theorem varsLookahead_of_append_nl (b r : List Char)
    (h : varsLookahead (b ++ '\n' :: r) = true) (hr : varsLookahead r = true) :
    varsLookahead b = true := by
  match b with
  | [] =>
    exfalso
    rw [List.nil_append] at h
    obtain ⟨c, rest, heq, _, _⟩ := varsLookahead_shape _ h
    injection heq with h1 _
    exact absurd h1 (by decide)
  | [c1] =>
    exfalso
    obtain ⟨c, rest, heq, hws2, haw⟩ := varsLookahead_shape _ h
    rw [List.cons_append, List.nil_append] at heq
    injection heq with h1 h2
    injection h2 with h2a h2b
    subst h2b
    obtain ⟨cr, restr, hreq, _, _⟩ := varsLookahead_shape _ hr
    rw [hreq, afterWs_cons_not_ws _ _ (by decide),
      startsVars_pos1 _ _ (by decide)] at haw
    exact absurd haw (by decide)
  | c1 :: c2 :: rest =>
    simp only [List.cons_append, varsLookahead, Bool.and_eq_true, decide_eq_true_eq] at h ⊢
    exact ⟨h.1, afterWs_of_append_nl _ _ h.2 hr⟩

/-- The first segment of a split whose whole input satisfies the lookahead
itself satisfies the lookahead: the matched marker never crosses a
separator newline. -/
theorem varsLookahead_splitNl_head (r b : List Char) (bs : List (List Char))
    (hsp : splitNl varsLookahead r = b :: bs) (hr : varsLookahead r = true) :
    varsLookahead b = true := by
  rcases splitNl_head_cases varsLookahead r b bs hsp with ⟨_, hcs⟩ | ⟨r2, hcs, hpr2, _⟩
  · rw [← hcs]; exact hr
  · rw [hcs] at hr
    exact varsLookahead_of_append_nl _ _ hr hpr2

/-- Every segment after the first produced by the record-marker split starts
with a record marker. -/
theorem varsLookahead_splitNl_tail (cs : List Char) :
    ∀ b ∈ (splitNl varsLookahead cs).tail, varsLookahead b = true := by
  induction cs with
  | nil => simp [splitNl]
  | cons c rest ih =>
    simp only [splitNl]
    split
    · rename_i hsplit
      simp only [Bool.and_eq_true, decide_eq_true_eq] at hsplit
      simp only [List.tail_cons]
      intro b hb
      cases hrest : splitNl varsLookahead rest with
      | nil => exact absurd hrest (splitNl_ne_nil _ rest)
      | cons b0 bs0 =>
        rw [hrest] at hb
        rcases List.mem_cons.mp hb with hb0 | hbs0
        · rw [hb0]
          exact varsLookahead_splitNl_head rest b0 bs0 hrest hsplit.2
        · rw [hrest] at ih
          exact ih b hbs0
    · cases hrest : splitNl varsLookahead rest with
      | nil => exact absurd hrest (splitNl_ne_nil _ rest)
      | cons b0 bs0 =>
        simp only [List.tail_cons]
        rw [hrest] at ih
        exact ih

/-- The first segment starts with a record marker exactly when the whole
input does. -/
theorem varsLookahead_splitNl_head_iff (cs b : List Char) (bs : List (List Char))
    (hsp : splitNl varsLookahead cs = b :: bs) :
    varsLookahead b = varsLookahead cs := by
  rcases splitNl_head_cases varsLookahead cs b bs hsp with ⟨_, hcs⟩ | ⟨r, hcs, hpr, _⟩
  · rw [hcs]
  · subst hcs
    cases hb : varsLookahead b with
    | true => rw [varsLookahead_append_of _ _ hb]
    | false =>
      cases hall : varsLookahead (b ++ '\n' :: r) with
      | true =>
        have hbt := varsLookahead_of_append_nl _ _ hall hpr
        rw [hb] at hbt
        exact absurd hbt (by decide)
      | false => rfl

/-- Count of record markers: line starts (position 0 or right after a
newline) where the lookahead `-\s+vars:` matches. -/
def countMarkersAux : Bool → List Char → Nat
  | _, [] => 0
  | atStart, c :: rest =>
    (if atStart && varsLookahead (c :: rest) then 1 else 0) +
      countMarkersAux (c = '\n') rest

/-- Number of record markers (dash-prefixed `vars` keys at line start) in a
document. -/
def countMarkers (cs : List Char) : Nat := countMarkersAux true cs

theorem varsLookahead_nl (rest : List Char) : varsLookahead ('\n' :: rest) = false := by
  match rest with
  | [] => rfl
  | c2 :: r => simp [varsLookahead]

theorem splitNl_length_cons (c : Char) (rest : List Char) :
    (splitNl varsLookahead (c :: rest)).length - 1 =
      (if (c = '\n' && varsLookahead rest : Bool) then 1 else 0) +
        ((splitNl varsLookahead rest).length - 1) := by
  simp only [splitNl]
  split
  · cases hr : splitNl varsLookahead rest with
    | nil => exact absurd hr (splitNl_ne_nil _ rest)
    | cons b0 bs0 =>
      simp only [List.length_cons]
      omega
  · cases hr : splitNl varsLookahead rest with
    | nil => exact absurd hr (splitNl_ne_nil _ rest)
    | cons b0 bs0 =>
      show ((c :: b0) :: bs0).length - 1 = 0 + ((b0 :: bs0).length - 1)
      simp

theorem countMarkersAux_spec (cs : List Char) :
    countMarkersAux true cs =
      (if varsLookahead cs then 1 else 0) + ((splitNl varsLookahead cs).length - 1) ∧
    countMarkersAux false cs = (splitNl varsLookahead cs).length - 1 := by
  induction cs with
  | nil => simp [countMarkersAux, splitNl, varsLookahead]
  | cons c rest ih =>
    obtain ⟨ih1, ih2⟩ := ih
    have hlen := splitNl_length_cons c rest
    have hrec : ∀ st : Bool, countMarkersAux st (c :: rest) =
        (if st && varsLookahead (c :: rest) then 1 else 0) +
          countMarkersAux (decide (c = '\n')) rest := fun _ => rfl
    by_cases hc : c = '\n'
    · subst hc
      have e : (decide (('\n' : Char) = '\n')) = true := by decide
      have hone : countMarkersAux true ('\n' :: rest) =
          (if varsLookahead rest then 1 else 0) + ((splitNl varsLookahead rest).length - 1) := by
        rw [hrec true, varsLookahead_nl, e, ih1]
        simp
      have htwo : countMarkersAux false ('\n' :: rest) =
          (if varsLookahead rest then 1 else 0) + ((splitNl varsLookahead rest).length - 1) := by
        rw [hrec false, varsLookahead_nl, e, ih1]
        simp
      have hlen2 : (splitNl varsLookahead ('\n' :: rest)).length - 1 =
          (if varsLookahead rest then 1 else 0) + ((splitNl varsLookahead rest).length - 1) := by
        rw [hlen, e, Bool.true_and]
      constructor
      · rw [hone, varsLookahead_nl, hlen2]
        simp
      · rw [htwo, hlen2]
    · have hd : (decide (c = '\n')) = false := by simp [hc]
      have hz : ((c = '\n' && varsLookahead rest : Bool)) = false := by simp [hc]
      rw [hz] at hlen
      simp at hlen
      constructor
      · rw [hrec true, hd, ih2, hlen, Bool.true_and]
      · rw [hrec false, hd, ih2, hlen, Bool.false_and]
        simp

/-- JS `b.includes('vars:')`: the literal `vars:` occurs somewhere in `b`. -/
def containsVars : List Char → Bool
  | [] => false
  | c :: rest => startsVars (c :: rest) || containsVars rest

theorem afterWs_containsVars (x : List Char) (h : afterWs x = true) :
    containsVars x = true := by
  induction x with
  | nil => simp [afterWs] at h
  | cons c x' ih =>
    simp only [containsVars, Bool.or_eq_true]
    by_cases hws : isWs c = true
    · rw [afterWs_cons_ws _ _ hws] at h
      exact Or.inr (ih h)
    · rw [Bool.not_eq_true] at hws
      rw [afterWs_cons_not_ws _ _ hws] at h
      exact Or.inl h

theorem varsLookahead_containsVars (b : List Char) (h : varsLookahead b = true) :
    containsVars b = true := by
  obtain ⟨c, rest, hreq, hws, haw⟩ := varsLookahead_shape b h
  subst hreq
  simp only [containsVars, Bool.or_eq_true]
  exact Or.inr (Or.inr (afterWs_containsVars rest haw))

/-- The test-block segmenter of `loadYAML` in generate-summary.js /
generate-analysis-html.js: `raw.split(/\n(?=-\s+vars:)/).filter(b =>
b.includes('vars:'))`. -/
def loadYAMLtests (raw : List Char) : List (List Char) :=
  (splitNl varsLookahead raw).filter containsVars

/-- C4 (amended): provided no discarded segment spuriously contains the
substring `vars:` other than as a record marker, the segmenter produces one
block per record marker, reconstruction holds up to the discarded leading
non-record segment, and zero markers give the empty block sequence. -/
theorem segmenter_marker_blocks (D : List Char)
    (H : ∀ b ∈ splitNl varsLookahead D, containsVars b = true → varsLookahead b = true) :
    (loadYAMLtests D).length = countMarkers D ∧
    (varsLookahead D = true → joinNl (loadYAMLtests D) = D) ∧
    (varsLookahead D = false →
      ∃ hdr, splitNl varsLookahead D = hdr :: loadYAMLtests D ∧
        joinNl (hdr :: loadYAMLtests D) = D) ∧
    (countMarkers D = 0 → loadYAMLtests D = []) := by
  cases hsp : splitNl varsLookahead D with
  | nil => exact absurd hsp (splitNl_ne_nil _ D)
  | cons b bs =>
    have htail : ∀ b' ∈ bs, varsLookahead b' = true := by
      intro b' hb'
      have := varsLookahead_splitNl_tail D b'
      rw [hsp] at this
      exact this hb'
    have htailc : ∀ b' ∈ bs, containsVars b' = true := fun b' hb' =>
      varsLookahead_containsVars b' (htail b' hb')
    have hfiltertail : bs.filter containsVars = bs := List.filter_eq_self.mpr htailc
    have hheadeq : varsLookahead b = varsLookahead D :=
      varsLookahead_splitNl_head_iff D b bs hsp
    have hbcv : containsVars b = varsLookahead b := by
      cases hcb : containsVars b with
      | true =>
        have := H b (by rw [hsp]; exact List.mem_cons_self b bs) hcb
        rw [this]
      | false =>
        cases hvb : varsLookahead b with
        | true =>
          have := varsLookahead_containsVars b hvb
          rw [hcb] at this
          exact absurd this (by decide)
        | false => rfl
    have hcount : countMarkers D = (if varsLookahead D then 1 else 0) + bs.length := by
      unfold countMarkers
      rw [(countMarkersAux_spec D).1, hsp]
      simp
    have hload : loadYAMLtests D = (b :: bs).filter containsVars := by
      unfold loadYAMLtests
      rw [hsp]
    have hjoin : joinNl (b :: bs) = D := by
      have := joinNl_splitNl varsLookahead D
      rw [hsp] at this
      exact this
    have hLtrue : varsLookahead D = true → loadYAMLtests D = b :: bs := by
      intro hvd
      rw [hload, List.filter_cons, hbcv, hheadeq, hvd, hfiltertail]
      simp
    have hLfalse : varsLookahead D = false → loadYAMLtests D = bs := by
      intro hvd
      rw [hload, List.filter_cons, hbcv, hheadeq, hvd, hfiltertail]
      simp
    refine ⟨?_, ?_, ?_, ?_⟩
    · cases hvd : varsLookahead D with
      | true =>
        rw [hLtrue hvd, hcount, hvd]
        simp [Nat.add_comm]
      | false =>
        rw [hLfalse hvd, hcount, hvd]
        simp
    · intro hvd
      rw [hLtrue hvd]
      exact hjoin
    · intro hvd
      refine ⟨b, ?_, ?_⟩
      · rw [hLfalse hvd]
      · rw [hLfalse hvd]
        exact hjoin
    · intro hzero
      rw [hcount] at hzero
      have hbs : bs.length = 0 := by omega
      cases hvd : varsLookahead D with
      | true =>
        rw [hvd] at hzero
        simp at hzero
      | false =>
        rw [hLfalse hvd]
        exact List.length_eq_zero.mp hbs

/-- Leading-whitespace strip, as in JS `trim`. -/
def trimL (s : List Char) : List Char := s.dropWhile isWs

/-- Trailing-whitespace strip, as in JS `trim`. -/
def trimR (s : List Char) : List Char := (s.reverse.dropWhile isWs).reverse

/-- JS `s.trim()`. -/
def trimWs (s : List Char) : List Char := trimR (trimL s)

/-- JS `s.replace(/\s+/g, ' ')`: each maximal whitespace run becomes one
space.  The flag records whether the previous character was whitespace. -/
def collapseWsAux : Bool → List Char → List Char
  | _, [] => []
  | prevWs, c :: rest =>
    if isWs c then
      if prevWs then collapseWsAux true rest else ' ' :: collapseWsAux true rest
    else c :: collapseWsAux false rest

/-- `norm` in refine-assertions.js: `(s || '').replace(/\s+/g, ' ').trim()`. -/
def normWs (s : List Char) : List Char := trimWs (collapseWsAux false s)

/-- A single or double quote character, the class `['"]`. -/
def isQuote (c : Char) : Bool := c = sqc || c = '"'

/-- Strip one leading quote character if present. -/
def stripLeadQuote : List Char → List Char
  | [] => []
  | c :: rest => if isQuote c then rest else c :: rest

/-- Strip one trailing quote character if present. -/
def stripTailQuote (s : List Char) : List Char :=
  match s.getLast? with
  | some c => if isQuote c then s.dropLast else s
  | none => s

/-- JS `.replace(/''/g, "'")`: each non-overlapping pair of single quotes
becomes one, scanning left to right. -/
def unescapeDoubled : List Char → List Char
  | [] => []
  | [c1] => [c1]
  | c1 :: c2 :: rest2 =>
    if c1 = sqc && c2 = sqc then sqc :: unescapeDoubled rest2
    else c1 :: unescapeDoubled (c2 :: rest2)

/-- `unescapeYamlValue` in refine-assertions.js:
`str.trim().replace(/^['"]|['"]$/g, '').replace(/''/g, "'")`. -/
def unescapeYamlValue (s : List Char) : List Char :=
  unescapeDoubled (stripTailQuote (stripLeadQuote (trimWs s)))

/-- JS `String(str).replace(/'/g, "''")`. -/
def escapeQuotesIn : List Char → List Char
  | [] => []
  | c :: rest => if c = sqc then sqc :: sqc :: escapeQuotesIn rest else c :: escapeQuotesIn rest

/-- `escapeForYaml` in refine-assertions.js: `"'" + String(str).replace(/'/g, "''") + "'"`. -/
def escapeForYaml (s : List Char) : List Char := sqc :: (escapeQuotesIn s ++ [sqc])

/-- The literal `value:` key. -/
def valueKey : List Char := "value:".toList

/-- Matcher for the per-line regex `^(\s*value:\s*)(.+)$` of patchYaml.
Returns the two capture groups when the line matches: the maximal leading
whitespace plus `value:` plus following whitespace, and the value text.
When everything after `value:` is whitespace, the regex backtracks so that
`(.+)` still takes one character. -/
def valueLineMatch (line : List Char) : Option (List Char × List Char) :=
  let lws := line.takeWhile isWs
  let r1 := line.dropWhile isWs
  if valueKey.isPrefixOf r1 then
    let rest := r1.drop 6
    let r2 := rest.dropWhile isWs
    if r2 ≠ [] then
      some (lws ++ valueKey ++ rest.takeWhile isWs, r2)
    else
      match rest.getLast? with
      | some c => some (lws ++ valueKey ++ rest.dropLast, [c])
      | none => none
  else none

/-- Does a line match the `value:` regex with a value equal, after
normalization and YAML unescaping, to the recorded failing assertion? -/
def lineMatches (failNorm : List Char) (line : List Char) : Bool :=
  match valueLineMatch line with
  | some p => normWs (unescapeYamlValue (trimWs p.2)) = failNorm
  | none => false

/-- The per-block patch loop of patchYaml: find the first line whose value
matches the normalized failing assertion, replace that line's value portion
with the quoted refined text, and stop (`break`). -/
def patchLines (failNorm refined : List Char) : List (List Char) → List (List Char)
  | [] => []
  | l :: ls =>
    match valueLineMatch l with
    | some p =>
      if normWs (unescapeYamlValue (trimWs p.2)) = failNorm then
        (p.1 ++ escapeForYaml refined) :: ls
      else l :: patchLines failNorm refined ls
    | none => l :: patchLines failNorm refined ls

/-- `block.split('\n')`. -/
def splitLines (s : List Char) : List (List Char) := splitNl (fun _ => true) s

/-- A failure record as consumed by patchYaml (fields `testIndex` and
`failingAssertion` of failures.json are the only ones it reads). -/
structure FailureRec where
  testIndex : Int
  failingAssertion : List Char
deriving DecidableEq, Repr

/-- A refinement returned by the text-generation service:
`{ testIndex, refinedAssertion }`. -/
structure RefinementRec where
  testIndex : Int
  refinedAssertion : List Char
deriving DecidableEq, Repr

/-- The `refinementsByIndex` object of patchYaml: built by
`refinements.forEach(r => { byIndex[r.testIndex] = r.refinedAssertion })`,
so the last record with a given index wins. -/
def lookupRefinement (rs : List RefinementRec) (k : Int) : Option (List Char) :=
  ((rs.filter (fun r => r.testIndex = k)).getLast?).map (fun r => r.refinedAssertion)

/-- One iteration of `failures.forEach` in patchYaml. -/
def applyFailure (rs : List RefinementRec) (blocks : List (List Char)) (f : FailureRec) :
    List (List Char) :=
  match lookupRefinement rs f.testIndex with
  | none => blocks
  | some refined =>
    if refined = [] then blocks
    else
      let blockIdx : Int := f.testIndex - 1
      if blockIdx < 0 ∨ (blocks.length : Int) ≤ blockIdx then blocks
      else
        match blocks.get? blockIdx.toNat with
        | none => blocks
        | some block =>
          blocks.set blockIdx.toNat
            (joinNl (patchLines (normWs f.failingAssertion) refined (splitLines block)))

/-- Is `tests:` followed by a newline the prefix here? -/
def startsTests (cs : List Char) : Bool := ("tests:\n".toList).isPrefixOf cs

/-- The header/body split regex `([\s\S]*?\n)tests:\n([\s\S]*)` of patchYaml:
find the first newline followed by the line `tests:`; the header is
everything up to and including that line, the body is the remainder. -/
def splitTests : List Char → Option (List Char × List Char)
  | [] => none
  | c :: rest =>
    if c = '\n' && startsTests rest then
      some ('\n' :: rest.take 7, rest.drop 7)
    else
      (splitTests rest).map (fun p => (c :: p.1, p.2))

/-- `patchYaml` of refine-assertions.js (the file write is modelled by the
`Except.ok` result; the `throw` by `Except.error`). -/
def patchYaml (yaml : List Char) (failures : List FailureRec)
    (refinements : List RefinementRec) : Except (List Char) (List Char) :=
  match splitTests yaml with
  | none => Except.error ("Could not find \"tests:\" section in YAML".toList)
  | some p =>
    let testBlocks := splitNl varsLookahead p.2
    Except.ok (p.1 ++ joinNl (failures.foldl (applyFailure refinements) testBlocks))

theorem isPrefixOf_take_drop (p : List Char) :
    ∀ s : List Char, p.isPrefixOf s = true →
      p ++ s.drop p.length = s ∧ s.take p.length = p := by
  induction p with
  | nil => intro s _; simp
  | cons a as ih =>
    intro s h
    cases s with
    | nil => simp [List.isPrefixOf] at h
    | cons b bs =>
      simp only [List.isPrefixOf, Bool.and_eq_true, beq_iff_eq] at h
      obtain ⟨hab, hrest⟩ := h
      obtain ⟨h1, h2⟩ := ih bs hrest
      subst hab
      constructor
      · simp only [List.length_cons, List.drop_succ_cons, List.cons_append, h1]
      · simp only [List.length_cons, List.take_succ_cons, h2]

theorem splitTests_append (cs : List Char) :
    ∀ hd bd, splitTests cs = some (hd, bd) → hd ++ bd = cs := by
  induction cs with
  | nil => intro hd bd h; simp [splitTests] at h
  | cons c rest ih =>
    intro hd bd h
    simp only [splitTests] at h
    split at h
    · rename_i hcond
      simp only [Bool.and_eq_true, decide_eq_true_eq] at hcond
      rw [Option.some.injEq, Prod.mk.injEq] at h
      obtain ⟨h1, h2⟩ := h
      rw [← h1, ← h2, hcond.1]
      simp [List.take_append_drop]
    · rw [Option.map_eq_some'] at h
      obtain ⟨p, hp, hpe⟩ := h
      rw [Prod.mk.injEq] at hpe
      obtain ⟨h1, h2⟩ := hpe
      rw [← h1, ← h2]
      have := ih p.1 p.2 hp
      simp [this]

theorem splitTests_some_shape (cs : List Char) :
    ∀ hd bd, splitTests cs = some (hd, bd) →
      ∃ a, cs = a ++ '\n' :: ("tests:\n".toList ++ bd) := by
  induction cs with
  | nil => intro hd bd h; simp [splitTests] at h
  | cons c rest ih =>
    intro hd bd h
    simp only [splitTests] at h
    split at h
    · rename_i hcond
      simp only [Bool.and_eq_true, decide_eq_true_eq] at hcond
      rw [Option.some.injEq, Prod.mk.injEq] at h
      obtain ⟨h1, h2⟩ := h
      refine ⟨[], ?_⟩
      have hpre := isPrefixOf_take_drop ("tests:\n".toList) rest hcond.2
      have h7 : ("tests:\n".toList).length = 7 := by decide
      rw [h7] at hpre
      rw [List.nil_append, hcond.1, ← h2]
      rw [List.cons.injEq]
      exact ⟨rfl, (hpre.1).symm⟩
    · rw [Option.map_eq_some'] at h
      obtain ⟨p, hp, hpe⟩ := h
      rw [Prod.mk.injEq] at hpe
      obtain ⟨h1, h2⟩ := hpe
      obtain ⟨a, ha⟩ := ih p.1 p.2 hp
      rw [← h2]
      exact ⟨c :: a, by rw [List.cons_append, ha]⟩

theorem lookupRefinement_nil (k : Int) : lookupRefinement [] k = none := rfl

theorem applyFailure_no_refinement (rs : List RefinementRec) (blocks : List (List Char))
    (f : FailureRec) (h : lookupRefinement rs f.testIndex = none) :
    applyFailure rs blocks f = blocks := by
  unfold applyFailure
  rw [h]

theorem foldl_applyFailure_nil (fs : List FailureRec) (blocks : List (List Char)) :
    fs.foldl (applyFailure []) blocks = blocks := by
  induction fs generalizing blocks with
  | nil => rfl
  | cons f fs ih =>
    rw [List.foldl_cons, applyFailure_no_refinement [] blocks f (lookupRefinement_nil _)]
    exact ih blocks

/-- C2: applying the Refinement Patcher with an empty RefinementRecord
sequence returns the input document byte-identical, for every document whose
`tests:` section is found and every failure sequence. -/
theorem patch_empty_refinements (yaml : List Char) (failures : List FailureRec)
    (hd bd : List Char) (hsplit : splitTests yaml = some (hd, bd)) :
    patchYaml yaml failures [] = Except.ok yaml := by
  unfold patchYaml
  rw [hsplit]
  simp only [foldl_applyFailure_nil, joinNl_splitNl]
  rw [splitTests_append yaml hd bd hsplit]

theorem patch_empty_refinements_w :
    patchYaml ("a\ntests:\nx".toList) [⟨1, "q".toList⟩] [] =
      Except.ok ("a\ntests:\nx".toList) :=
  patch_empty_refinements _ _ ("a\ntests:\n".toList) ("x".toList) (by decide)

/-- C10: when the document has no `tests:` line preceded by a newline, the
patcher raises the error `Could not find "tests:" section in YAML` and
produces no patched output. -/
theorem patch_missing_tests_section (yaml : List Char) (failures : List FailureRec)
    (refinements : List RefinementRec)
    (h : ∀ a b : List Char, yaml ≠ a ++ '\n' :: ("tests:\n".toList ++ b)) :
    patchYaml yaml failures refinements =
      Except.error ("Could not find \"tests:\" section in YAML".toList) := by
  cases hsp : splitTests yaml with
  | none =>
    unfold patchYaml
    rw [hsp]
  | some p =>
    obtain ⟨a, ha⟩ := splitTests_some_shape yaml p.1 p.2 hsp
    exact absurd ha (h a p.2)

theorem patch_missing_tests_section_w :
    patchYaml ("abc".toList) [] [] =
      Except.error ("Could not find \"tests:\" section in YAML".toList) :=
  patch_missing_tests_section _ _ _ (by
    intro a b hEq
    have hlen := congrArg List.length hEq
    rw [List.length_append, List.length_cons, List.length_append] at hlen
    have e1 : ("abc".toList).length = 3 := rfl
    have e2 : ("tests:\n".toList).length = 7 := rfl
    rw [e1, e2] at hlen
    omega)

/-- A concrete document used to instantiate the segmenter theorem. -/
def segDocW : List Char := "# header\n- vars: v1\n  value: a\n- vars: v2\n  value: b".toList

theorem segmenter_marker_blocks_w :
    (loadYAMLtests segDocW).length = countMarkers segDocW ∧
    (varsLookahead segDocW = true → joinNl (loadYAMLtests segDocW) = segDocW) ∧
    (varsLookahead segDocW = false →
      ∃ hdr, splitNl varsLookahead segDocW = hdr :: loadYAMLtests segDocW ∧
        joinNl (hdr :: loadYAMLtests segDocW) = segDocW) ∧
    (countMarkers segDocW = 0 → loadYAMLtests segDocW = []) :=
  segmenter_marker_blocks segDocW (by decide)

/-- C4 counterexample: a document with one record marker and a non-record
header.  The segmenter returns the single record block, but the
concatenation of the returned blocks does not reconstruct the document:
the header segment is discarded. -/
theorem segmenter_concat_cex :
    countMarkers ("header\n- vars: a".toList) = 1 ∧
    loadYAMLtests ("header\n- vars: a".toList) = ["- vars: a".toList] ∧
    joinNl (loadYAMLtests ("header\n- vars: a".toList)) ≠ "header\n- vars: a".toList := by
  refine ⟨by decide, by decide, by decide⟩

theorem lookupRefinement_singleton (r : RefinementRec) (k : Int) :
    lookupRefinement [r] k =
      if r.testIndex = k then some r.refinedAssertion else none := by
  unfold lookupRefinement
  by_cases h : r.testIndex = k
  · simp [h]
  · simp [h]

theorem foldl_applyFailure_skip (rs : List RefinementRec) :
    ∀ (gs : List FailureRec) (blocks : List (List Char)),
      (∀ g ∈ gs, lookupRefinement rs g.testIndex = none) →
      gs.foldl (applyFailure rs) blocks = blocks := by
  intro gs
  induction gs with
  | nil => intro blocks _; rfl
  | cons g gs ih =>
    intro blocks h
    rw [List.foldl_cons,
      applyFailure_no_refinement rs blocks g (h g (List.mem_cons_self g gs))]
    exact ih blocks (fun g' hg' => h g' (List.mem_cons_of_mem g hg'))

theorem dropLast_append_of_getLast (l : List Char) :
    ∀ c : Char, l.getLast? = some c → l.dropLast ++ [c] = l := by
  induction l with
  | nil => intro c h; simp at h
  | cons x t ih =>
    intro c h
    cases t with
    | nil =>
      simp only [List.getLast?_singleton, Option.some.injEq] at h
      rw [h]
      rfl
    | cons y t2 =>
      rw [List.getLast?_cons_cons] at h
      have := ih c h
      simp only [List.dropLast_cons₂, List.cons_append, this]

/-- A successful `value:` line match decomposes the line into the two
capture groups. -/
theorem valueLineMatch_append (line : List Char) :
    ∀ m1 m2 : List Char, valueLineMatch line = some (m1, m2) → line = m1 ++ m2 := by
  intro m1 m2 h
  have hline : line.takeWhile isWs ++ line.dropWhile isWs = line :=
    List.takeWhile_append_dropWhile _ _
  simp only [valueLineMatch] at h
  split at h
  · rename_i hpre
    have hkey := isPrefixOf_take_drop valueKey (line.dropWhile isWs) hpre
    have h6 : valueKey.length = 6 := rfl
    rw [h6] at hkey
    split at h
    · rename_i hne
      rw [Option.some.injEq, Prod.mk.injEq] at h
      obtain ⟨h1, h2⟩ := h
      rw [← h1, ← h2]
      have hrest : ((line.dropWhile isWs).drop 6).takeWhile isWs ++
          ((line.dropWhile isWs).drop 6).dropWhile isWs = (line.dropWhile isWs).drop 6 :=
        List.takeWhile_append_dropWhile _ _
      calc line = line.takeWhile isWs ++ line.dropWhile isWs := hline.symm
        _ = line.takeWhile isWs ++ (valueKey ++ (line.dropWhile isWs).drop 6) := by
              rw [hkey.1]
        _ = _ := by rw [← hrest]; simp [List.append_assoc]
    · split at h
      · rename_i c hlast
        rw [Option.some.injEq, Prod.mk.injEq] at h
        obtain ⟨h1, h2⟩ := h
        rw [← h1, ← h2]
        have hdl : ((line.dropWhile isWs).drop 6).dropLast ++ [c] =
            (line.dropWhile isWs).drop 6 :=
          dropLast_append_of_getLast _ c hlast
        calc line = line.takeWhile isWs ++ line.dropWhile isWs := hline.symm
          _ = line.takeWhile isWs ++ (valueKey ++ (line.dropWhile isWs).drop 6) := by
                rw [hkey.1]
          _ = _ := by rw [← hdl]; simp [List.append_assoc]
      · exact absurd h (by simp)
  · exact absurd h (by simp)

theorem lineMatches_false_of_match (failNorm l : List Char) (p : List Char × List Char)
    (hm : valueLineMatch l = some p)
    (hn : ¬ normWs (unescapeYamlValue (trimWs p.2)) = failNorm) :
    lineMatches failNorm l = false := by
  unfold lineMatches
  rw [hm]
  simp [hn]

theorem lineMatches_false_of_none (failNorm l : List Char)
    (hm : valueLineMatch l = none) :
    lineMatches failNorm l = false := by
  unfold lineMatches
  rw [hm]

/-- The per-block loop of patchYaml rewrites exactly the first line whose
value normalizes to the failing assertion, replacing only the value capture
group and leaving all other lines untouched. -/
theorem patchLines_first_match (failNorm refined : List Char) :
    ∀ lines : List (List Char), (∃ l ∈ lines, lineMatches failNorm l = true) →
      ∃ (i : Nat) (m1 m2 : List Char),
        i < lines.length ∧
        lines.get? i = some (m1 ++ m2) ∧
        valueLineMatch (m1 ++ m2) = some (m1, m2) ∧
        normWs (unescapeYamlValue (trimWs m2)) = failNorm ∧
        (∀ i2, i2 < i → lineMatches failNorm ((lines.get? i2).getD []) = false) ∧
        patchLines failNorm refined lines = lines.set i (m1 ++ escapeForYaml refined) := by
  intro lines
  induction lines with
  | nil => intro h; simp at h
  | cons l ls ih =>
    intro h
    cases hm : valueLineMatch l with
    | some p =>
      by_cases hn : normWs (unescapeYamlValue (trimWs p.2)) = failNorm
      · refine ⟨0, p.1, p.2, by simp, ?_, ?_, hn, by intro i2 hi2; omega, ?_⟩
        · have hl := valueLineMatch_append l p.1 p.2 (by rw [hm])
          rw [List.get?_cons_zero, ← hl]
        · have hl := valueLineMatch_append l p.1 p.2 (by rw [hm])
          rw [← hl, hm]
        · show patchLines failNorm refined (l :: ls) = _
          unfold patchLines
          rw [hm]
          simp only [hn, if_pos rfl]
          rfl
      · have hlf : lineMatches failNorm l = false :=
          lineMatches_false_of_match failNorm l p hm hn
        have hex : ∃ l' ∈ ls, lineMatches failNorm l' = true := by
          obtain ⟨l', hl', hmt⟩ := h
          rcases List.mem_cons.mp hl' with rfl | hls
          · rw [hlf] at hmt; exact absurd hmt (by decide)
          · exact ⟨l', hls, hmt⟩
        obtain ⟨i, m1, m2, hi, hget, hvm, hnm, hprev, hpatch⟩ := ih hex
        refine ⟨i + 1, m1, m2, by simpa using Nat.succ_lt_succ hi, by simpa using hget,
          hvm, hnm, ?_, ?_⟩
        · intro i2 hi2
          cases i2 with
          | zero => simpa using hlf
          | succ j =>
            have : j < i := by omega
            simpa using hprev j this
        · show patchLines failNorm refined (l :: ls) = _
          unfold patchLines
          rw [hm]
          show (if normWs (unescapeYamlValue (trimWs p.2)) = failNorm
              then (p.1 ++ escapeForYaml refined) :: ls
              else l :: patchLines failNorm refined ls) = _
          rw [if_neg hn]
          show l :: patchLines failNorm refined ls = (l :: ls).set (i + 1) _
          rw [hpatch]
          rfl
    | none =>
      have hlf : lineMatches failNorm l = false := lineMatches_false_of_none failNorm l hm
      have hex : ∃ l' ∈ ls, lineMatches failNorm l' = true := by
        obtain ⟨l', hl', hmt⟩ := h
        rcases List.mem_cons.mp hl' with rfl | hls
        · rw [hlf] at hmt; exact absurd hmt (by decide)
        · exact ⟨l', hls, hmt⟩
      obtain ⟨i, m1, m2, hi, hget, hvm, hnm, hprev, hpatch⟩ := ih hex
      refine ⟨i + 1, m1, m2, by simpa using Nat.succ_lt_succ hi, by simpa using hget,
        hvm, hnm, ?_, ?_⟩
      · intro i2 hi2
        cases i2 with
        | zero => simpa using hlf
        | succ j =>
          have : j < i := by omega
          simpa using hprev j this
      · show patchLines failNorm refined (l :: ls) = _
        unfold patchLines
        rw [hm]
        show l :: patchLines failNorm refined ls = (l :: ls).set (i + 1) _
        rw [hpatch]
        rfl

theorem applyFailure_hit (rs : List RefinementRec) (blocks : List (List Char)) (f : FailureRec)
    (refined : List Char)
    (hlook : lookupRefinement rs f.testIndex = some refined)
    (hne : refined ≠ [])
    (hpos : 1 ≤ f.testIndex) (hlt : f.testIndex ≤ (blocks.length : Int))
    (block : List Char) (hblock : blocks.get? (f.testIndex - 1).toNat = some block) :
    applyFailure rs blocks f =
      blocks.set (f.testIndex - 1).toNat
        (joinNl (patchLines (normWs f.failingAssertion) refined (splitLines block))) := by
  simp only [applyFailure]
  rw [hlook]
  have hcond : ¬ (f.testIndex - 1 < 0 ∨ (blocks.length : Int) ≤ f.testIndex - 1) := by omega
  show (if refined = [] then blocks
      else if f.testIndex - 1 < 0 ∨ (blocks.length : Int) ≤ f.testIndex - 1 then blocks
      else match blocks.get? (f.testIndex - 1).toNat with
        | none => blocks
        | some block => blocks.set (f.testIndex - 1).toNat
            (joinNl (patchLines (normWs f.failingAssertion) refined (splitLines block)))) = _
  rw [if_neg hne, if_neg hcond, hblock]

/-- C1 (patch locality): with a single refinement for the ordinal of failure
`f` (all other failures' ordinals differ), the patched document equals the
input with exactly one block replaced, and that block equals the original
with exactly one line replaced, the first whose value matches the failing
assertion after normalization; the replaced line keeps its key-and-indent
capture group and substitutes only the quoted refined text for the value
group.  Everything else is byte-identical. -/
theorem patch_locality
    (yaml hd bd : List Char) (hsplit : splitTests yaml = some (hd, bd))
    (fs1 fs2 : List FailureRec) (f : FailureRec) (r : RefinementRec)
    (hri : r.testIndex = f.testIndex) (hrne : r.refinedAssertion ≠ [])
    (hothers : ∀ g, (g ∈ fs1 ∨ g ∈ fs2) → g.testIndex ≠ f.testIndex)
    (hpos : 1 ≤ f.testIndex)
    (hlt : f.testIndex ≤ ((splitNl varsLookahead bd).length : Int))
    (block : List Char)
    (hblock : (splitNl varsLookahead bd).get? (f.testIndex - 1).toNat = some block)
    (hmatch : ∃ l ∈ splitLines block, lineMatches (normWs f.failingAssertion) l = true) :
    ∃ (i : Nat) (m1 m2 : List Char),
      i < (splitLines block).length ∧
      (splitLines block).get? i = some (m1 ++ m2) ∧
      valueLineMatch (m1 ++ m2) = some (m1, m2) ∧
      normWs (unescapeYamlValue (trimWs m2)) = normWs f.failingAssertion ∧
      (∀ i2, i2 < i →
        lineMatches (normWs f.failingAssertion) (((splitLines block).get? i2).getD []) = false) ∧
      patchYaml yaml (fs1 ++ f :: fs2) [r] =
        Except.ok (hd ++ joinNl ((splitNl varsLookahead bd).set (f.testIndex - 1).toNat
          (joinNl ((splitLines block).set i (m1 ++ escapeForYaml r.refinedAssertion))))) := by
  obtain ⟨i, m1, m2, hi, hget, hvm, hnm, hprev, hpatch⟩ :=
    patchLines_first_match (normWs f.failingAssertion) r.refinedAssertion (splitLines block)
      hmatch
  refine ⟨i, m1, m2, hi, hget, hvm, hnm, hprev, ?_⟩
  unfold patchYaml
  rw [hsplit]
  show Except.ok (hd ++ joinNl
      (List.foldl (applyFailure [r]) (splitNl varsLookahead bd) (fs1 ++ f :: fs2))) = _
  have hlook1 : ∀ g : FailureRec, g.testIndex ≠ f.testIndex →
      lookupRefinement [r] g.testIndex = none := by
    intro g hg
    rw [lookupRefinement_singleton, if_neg]
    intro hc
    exact hg (hc.symm.trans hri)
  have hfoldl1 : fs1.foldl (applyFailure [r]) (splitNl varsLookahead bd) =
      splitNl varsLookahead bd :=
    foldl_applyFailure_skip [r] fs1 _ (fun g hg => hlook1 g (hothers g (Or.inl hg)))
  have hlookf : lookupRefinement [r] f.testIndex = some r.refinedAssertion := by
    rw [lookupRefinement_singleton, if_pos hri]
  have hhit := applyFailure_hit [r] (splitNl varsLookahead bd) f r.refinedAssertion hlookf
    hrne hpos hlt block hblock
  rw [List.foldl_append, hfoldl1, List.foldl_cons, hhit,
    foldl_applyFailure_skip [r] fs2 _ (fun g hg => hlook1 g (hothers g (Or.inr hg))),
    hpatch]

/-- Concrete two-block document for instantiating the locality theorem. -/
def patchDocW : List Char := "a\ntests:\n- vars: v\n  value: foo\n- vars: w\n  value: bar".toList

/-- Body of `patchDocW` after the `tests:` header. -/
def patchBodyW : List Char := "- vars: v\n  value: foo\n- vars: w\n  value: bar".toList

/-- Second block of `patchDocW`. -/
def patchBlockW : List Char := "- vars: w\n  value: bar".toList

/-- Failure record targeting ordinal 2 of `patchDocW`. -/
def failW : FailureRec := ⟨2, "bar".toList⟩

/-- Refinement record for ordinal 2. -/
def refW : RefinementRec := ⟨2, "baz".toList⟩

theorem patch_locality_w :
    ∃ (i : Nat) (m1 m2 : List Char),
      i < (splitLines patchBlockW).length ∧
      (splitLines patchBlockW).get? i = some (m1 ++ m2) ∧
      valueLineMatch (m1 ++ m2) = some (m1, m2) ∧
      normWs (unescapeYamlValue (trimWs m2)) = normWs failW.failingAssertion ∧
      (∀ i2, i2 < i →
        lineMatches (normWs failW.failingAssertion)
          (((splitLines patchBlockW).get? i2).getD []) = false) ∧
      patchYaml patchDocW [failW] [refW] =
        Except.ok ("a\ntests:\n".toList ++ joinNl ((splitNl varsLookahead patchBodyW).set
          (failW.testIndex - 1).toNat
          (joinNl ((splitLines patchBlockW).set i
            (m1 ++ escapeForYaml refW.refinedAssertion))))) :=
  patch_locality patchDocW ("a\ntests:\n".toList) patchBodyW (by decide)
    [] [] failW refW rfl (by decide)
    (by intro g hg; rcases hg with hx | hx <;> simp at hx)
    (by decide) (by decide) patchBlockW (by decide) (by decide)

/-- A JSON scalar as far as the verdict logic is concerned: the strict
comparisons `=== true` / `=== false` distinguish booleans from any other
value, so numbers and strings are carried explicitly. -/
inductive JSVal where
  | vbool : Bool → JSVal
  | vnum : Int → JSVal
  | vstr : List Char → JSVal
deriving DecidableEq, Repr

/-- `assertion` object of a component result (`failed.assertion.value`). -/
structure JAssertion where
  value : Option (List Char) := none
deriving DecidableEq, Repr

/-- One entry of `gradingResult.componentResults`. -/
structure Component where
  pass : Option JSVal := none
  assertion : Option JAssertion := none
  reason : Option (List Char) := none
deriving DecidableEq, Repr

/-- The `gradingResult` object of a result entry. -/
structure GradingResult where
  pass : Option JSVal := none
  componentResults : Option (List Component) := none
  reason : Option (List Char) := none
deriving DecidableEq, Repr

/-- One promptfoo result entry, with the fields read by
generate-summary.js and extract-failures.js.  `inputVar` stands for
`r.testCase.vars.input` (absent when any link of that chain is absent) and
`output` for `r.response.output`. -/
structure ResultEntry where
  success : Option JSVal := none
  pass : Option JSVal := none
  gradingResult : Option GradingResult := none
  inputVar : Option (List Char) := none
  output : Option (List Char) := none
deriving DecidableEq, Repr

/-- JS `v === true` on a possibly-absent field. -/
def strictTrue (v : Option JSVal) : Bool := v = some (JSVal.vbool true)

/-- The verdict expression of generate-summary.js line 115 /
extract-failures.js line 35 / generate-analysis-html.js line 139:
`r.success === true || r.pass === true ||
(r.gradingResult && r.gradingResult.pass === true)`. -/
def verdictPass (r : ResultEntry) : Bool :=
  strictTrue r.success || strictTrue r.pass ||
    (match r.gradingResult with
     | some g => strictTrue g.pass
     | none => false)

/-- The claimed precedence verdict: check success, then pass, then the
nested grading-result pass; the first present boolean wins; fail when none
is present. -/
def precedenceVerdict (r : ResultEntry) : Bool :=
  match r.success with
  | some (JSVal.vbool b) => b
  | _ =>
    match r.pass with
    | some (JSVal.vbool b) => b
    | _ =>
      match r.gradingResult with
      | some g =>
        match g.pass with
        | some (JSVal.vbool b) => b
        | _ => false
      | none => false

/-- The amended C3 description: pass exactly when at least one of the three
flags is present with boolean value true. -/
def anyFlagTrue (r : ResultEntry) : Prop :=
  r.success = some (JSVal.vbool true) ∨ r.pass = some (JSVal.vbool true) ∨
    ∃ g, r.gradingResult = some g ∧ g.pass = some (JSVal.vbool true)

/-- C3 (amended): the three verdict signals are combined as a disjunction of
strict comparisons with true, not as a presence-ordered precedence chain;
when none of the flags is boolean true (in particular when none is present)
the verdict is fail. -/
theorem verdict_disjunction (r : ResultEntry) : verdictPass r = true ↔ anyFlagTrue r := by
  unfold verdictPass anyFlagTrue strictTrue
  cases hg : r.gradingResult with
  | none =>
    simp only [Bool.or_eq_true, decide_eq_true_eq]
    constructor
    · rintro ((h | h) | h)
      · exact Or.inl h
      · exact Or.inr (Or.inl h)
      · exact absurd h (by decide)
    · rintro (h | h | ⟨g, hge, _⟩)
      · exact Or.inl (Or.inl h)
      · exact Or.inl (Or.inr h)
      · exact absurd hge (by simp)
  | some g =>
    simp only [Bool.or_eq_true, decide_eq_true_eq]
    constructor
    · rintro ((h | h) | h)
      · exact Or.inl h
      · exact Or.inr (Or.inl h)
      · exact Or.inr (Or.inr ⟨g, rfl, h⟩)
    · rintro (h | h | ⟨g2, hge, hp⟩)
      · exact Or.inl (Or.inl h)
      · exact Or.inl (Or.inr h)
      · rw [Option.some.injEq] at hge
        exact Or.inr (by rw [hge]; exact hp)

/-- C3 counterexample: an entry whose success flag is present and false but
whose pass flag is true.  The claimed precedence rule makes it a fail; the
code's disjunction makes it a pass. -/
theorem verdict_precedence_cex :
    ({ success := some (JSVal.vbool false), pass := some (JSVal.vbool true) } :
        ResultEntry).success = some (JSVal.vbool false) ∧
    verdictPass { success := some (JSVal.vbool false), pass := some (JSVal.vbool true) } = true ∧
    precedenceVerdict
      { success := some (JSVal.vbool false), pass := some (JSVal.vbool true) } = false := by
  refine ⟨rfl, by decide, by decide⟩

/-- C9: the verdict is pass only when some flag is exactly the boolean true;
any other values (absent, numbers such as 1, strings such as "true",
boolean false) leave the entry a fail. -/
theorem verdict_strict_boolean (r : ResultEntry)
    (hs : r.success ≠ some (JSVal.vbool true))
    (hp : r.pass ≠ some (JSVal.vbool true))
    (hn : ∀ g, r.gradingResult = some g → g.pass ≠ some (JSVal.vbool true)) :
    verdictPass r = false := by
  unfold verdictPass strictTrue
  cases hg : r.gradingResult with
  | none => simp [hs, hp]
  | some g => simp [hs, hp, hn g hg]

theorem verdict_strict_boolean_w :
    verdictPass
      { success := some (JSVal.vnum 1), pass := some (JSVal.vstr "true".toList),
        gradingResult := some { pass := some (JSVal.vnum 1) } } = false :=
  verdict_strict_boolean _ (by decide) (by decide)
    (by
      intro g hg
      rw [Option.some.injEq] at hg
      rw [← hg]
      decide)

/-- The em-dash sentinel of extract-failures.js. -/
def emdash : List Char := "—".toList

/-- `r.gradingResult.componentResults.find(c => c.pass === false)`. -/
def firstFailingComponent (g : GradingResult) : Option Component :=
  match g.componentResults with
  | some comps => comps.find? (fun c => c.pass = some (JSVal.vbool false))
  | none => none

/-- The `failingAssertion` chain of extract-failures.js lines 38-46:
`failed.assertion && failed.assertion.value`, still `null`/absent when no
failing component is found. -/
def faChain (r : ResultEntry) : Option (List Char) :=
  match r.gradingResult with
  | some g =>
    match firstFailingComponent g with
    | some failed =>
      match failed.assertion with
      | some a => a.value
      | none => none
    | none => none
  | none => none

/-- The `reason` variable after lines 38-46 (the failing component's reason,
defaulted to the empty string). -/
def failedReason0 (r : ResultEntry) : List Char :=
  match r.gradingResult with
  | some g =>
    match firstFailingComponent g with
    | some failed => failed.reason.getD []
    | none => []
  | none => []

/-- The `reason` variable after line 47:
`if (!failingAssertion && r.gradingResult) reason = r.gradingResult.reason || ''`.
A present-but-empty assertion string is falsy and also triggers the
overwrite. -/
def reasonFinal (r : ResultEntry) : List Char :=
  if (faChain r).getD [] = [] then
    match r.gradingResult with
    | some g => g.reason.getD []
    | none => failedReason0 r
  else failedReason0 r

/-- One record pushed to failures.json. -/
structure FailureRecordOut where
  testIndex : Int
  input : List Char
  output : List Char
  failingAssertion : List Char
  reason : List Char
deriving DecidableEq, Repr

/-- Lines 49-58 of extract-failures.js for one failing entry at 0-based
index `i`: `{ testIndex: i + 1, input: input.slice(0, 500), output:
output.slice(0, 800), failingAssertion: failingAssertion || reason || '—',
reason: reason.slice(0, 300) }`. -/
def extractFailure (i : Nat) (r : ResultEntry) : FailureRecordOut :=
  { testIndex := (i : Int) + 1
    input := (r.inputVar.getD []).take 500
    output := (r.output.getD []).take 800
    failingAssertion :=
      if (faChain r).getD [] = [] then
        (if reasonFinal r = [] then emdash else reasonFinal r)
      else (faChain r).getD []
    reason := (reasonFinal r).take 300 }

/-- The amended failing-assertion selector, stated independently: the first
failing sub-assertion's value when it exists, is present and non-empty;
otherwise the grading result's reason when present and non-empty; otherwise
the sentinel. -/
def amendedFailingText (r : ResultEntry) : List Char :=
  match (r.gradingResult.bind firstFailingComponent).bind
      (fun c => c.assertion.bind (fun a => a.value)) with
  | some v =>
    if v = [] then
      match r.gradingResult.bind (fun g => g.reason) with
      | some t => if t = [] then emdash else t
      | none => emdash
    else v
  | none =>
    match r.gradingResult.bind (fun g => g.reason) with
    | some t => if t = [] then emdash else t
    | none => emdash

/-- The amended reason selector: the failing sub-assertion's reason when
that sub-assertion carries a non-empty assertion value, otherwise the
grading result's reason. -/
def amendedReasonText (r : ResultEntry) : List Char :=
  match (r.gradingResult.bind firstFailingComponent).bind
      (fun c => c.assertion.bind (fun a => a.value)) with
  | some v =>
    if v = [] then (r.gradingResult.bind (fun g => g.reason)).getD []
    else ((r.gradingResult.bind firstFailingComponent).map
      (fun c => c.reason.getD [])).getD []
  | none => (r.gradingResult.bind (fun g => g.reason)).getD []

theorem faChain_eq_bind (r : ResultEntry) :
    faChain r = (r.gradingResult.bind firstFailingComponent).bind
      (fun c => c.assertion.bind (fun a => a.value)) := by
  unfold faChain
  cases hg : r.gradingResult with
  | none => rfl
  | some g =>
    cases hc : firstFailingComponent g with
    | none => simp [hc]
    | some failed =>
      cases ha : failed.assertion with
      | none => simp [hc, ha]
      | some a => simp [hc, ha]

theorem fallback_eq (g : GradingResult) :
    (if (g.reason.getD []) = [] then emdash else g.reason.getD []) =
      (match g.reason with
       | some t => if t = [] then emdash else t
       | none => emdash) := by
  cases hr : g.reason with
  | none => simp
  | some t => by_cases ht : t = [] <;> simp [ht]

theorem reasonFinal_amended (r : ResultEntry) : reasonFinal r = amendedReasonText r := by
  unfold reasonFinal amendedReasonText failedReason0
  rw [faChain_eq_bind]
  cases hg : r.gradingResult with
  | none => simp
  | some g =>
    cases hc : firstFailingComponent g with
    | none => simp [hc]
    | some failed =>
      cases ha : failed.assertion with
      | none => simp [hc, ha]
      | some a =>
        cases hv : a.value with
        | none => simp [hc, ha, hv]
        | some v =>
          by_cases hve : v = []
          · simp [hc, ha, hv, hve]
          · simp [hc, ha, hv, hve]

theorem failingAssertion_amended (i : Nat) (r : ResultEntry) :
    (extractFailure i r).failingAssertion = amendedFailingText r := by
  show (if (faChain r).getD [] = [] then
        (if reasonFinal r = [] then emdash else reasonFinal r)
      else (faChain r).getD []) = amendedFailingText r
  unfold amendedFailingText reasonFinal failedReason0
  rw [faChain_eq_bind]
  cases hg : r.gradingResult with
  | none => simp
  | some g =>
    cases hc : firstFailingComponent g with
    | none =>
      cases hr : g.reason with
      | none => simp [hc, hr]
      | some t => by_cases ht : t = [] <;> simp [hc, hr, ht]
    | some failed =>
      cases ha : failed.assertion with
      | none =>
        cases hr : g.reason with
        | none => simp [hc, ha, hr]
        | some t => by_cases ht : t = [] <;> simp [hc, ha, hr, ht]
      | some a =>
        cases hv : a.value with
        | none =>
          cases hr : g.reason with
          | none => simp [hc, ha, hv, hr]
          | some t => by_cases ht : t = [] <;> simp [hc, ha, hv, hr, ht]
        | some v =>
          by_cases hve : v = []
          · cases hr : g.reason with
            | none => simp [hc, ha, hv, hve, hr]
            | some t => by_cases ht : t = [] <;> simp [hc, ha, hv, hve, hr, ht]
          · simp [hc, ha, hv, hve]

/-- C7 (amended): for a fail-verdict entry, the extracted record's snippets
are length-bounded prefixes (input 500, output 800, reason 300), and the
failing-assertion text is the first failing sub-assertion's value when one
exists with a present non-empty value, otherwise the grading result's
non-empty reason, otherwise the em-dash sentinel; the recorded reason is
the correspondingly selected reason, truncated to 300. -/
theorem extract_failure_fields (i : Nat) (r : ResultEntry)
    (hfail : verdictPass r = false) :
    (extractFailure i r).testIndex = (i : Int) + 1 ∧
    (extractFailure i r).input = (r.inputVar.getD []).take 500 ∧
    (extractFailure i r).input.length ≤ 500 ∧
    (extractFailure i r).output = (r.output.getD []).take 800 ∧
    (extractFailure i r).output.length ≤ 800 ∧
    (extractFailure i r).reason = (amendedReasonText r).take 300 ∧
    (extractFailure i r).reason.length ≤ 300 ∧
    (extractFailure i r).failingAssertion = amendedFailingText r := by
  refine ⟨rfl, rfl, List.length_take_le _ _, rfl, List.length_take_le _ _, ?_,
    List.length_take_le _ _, failingAssertion_amended i r⟩
  show (reasonFinal r).take 300 = (amendedReasonText r).take 300
  rw [reasonFinal_amended]

/-- Concrete failing component for the extraction witness. -/
def wComp : Component :=
  { pass := some (JSVal.vbool false)
    assertion := some { value := some "output.includes(luxury)".toList }
    reason := some "missing keyword".toList }

/-- Concrete failing entry for the extraction witness. -/
def wEntry : ResultEntry :=
  { gradingResult := some { reason := some "missing keyword".toList
                            componentResults := some [wComp] }
    inputVar := some "desc".toList
    output := some "text".toList }

theorem extract_failure_fields_w :
    (extractFailure 1 wEntry).testIndex = 2 ∧
    (extractFailure 1 wEntry).input = (wEntry.inputVar.getD []).take 500 ∧
    (extractFailure 1 wEntry).failingAssertion = amendedFailingText wEntry ∧
    (extractFailure 1 wEntry).reason = (amendedReasonText wEntry).take 300 :=
  ⟨(extract_failure_fields 1 wEntry (by decide)).1,
   (extract_failure_fields 1 wEntry (by decide)).2.1,
   (extract_failure_fields 1 wEntry (by decide)).2.2.2.2.2.2.2,
   (extract_failure_fields 1 wEntry (by decide)).2.2.2.2.2.1⟩

/-- Concrete passing component used by the C7 counterexample. -/
def cexComp : Component :=
  { pass := some (JSVal.vbool true)
    assertion := some { value := some "output.includes(x)".toList }
    reason := some "ok".toList }

/-- Fail-verdict entry whose non-empty sub-assertion list has no failing
member. -/
def cexEntry : ResultEntry :=
  { gradingResult := some { reason := some "graded 0.2".toList
                            componentResults := some [cexComp] } }

/-- C7 counterexample: the sub-assertion list of `cexEntry` is non-empty but
contains no sub-assertion with passed = false, so the claimed selector (the
assertionText of the first failing sub-assertion) has no referent; the code
emits the grading result's reason instead, which is not the assertion text
of any sub-assertion. -/
theorem extract_failure_cex :
    verdictPass cexEntry = false ∧
    (∃ g, cexEntry.gradingResult = some g ∧ g.componentResults = some [cexComp]) ∧
    (∀ c ∈ [cexComp], c.pass ≠ some (JSVal.vbool false)) ∧
    (extractFailure 0 cexEntry).failingAssertion = "graded 0.2".toList ∧
    (∀ c ∈ [cexComp], (c.assertion.bind (fun a => a.value)).getD [] ≠
      (extractFailure 0 cexEntry).failingAssertion) := by
  refine ⟨by decide, ⟨_, rfl, rfl⟩, by decide, by decide, by decide⟩

/-- The `metadata` object produced by loadYAML for one test block. -/
structure TestMeta where
  spec_requirements : Option (List (List Char)) := none
  requirement : Option (List Char) := none
deriving DecidableEq, Repr

/-- One entry of `config.tests`. -/
structure TestDef where
  metadata : Option TestMeta := none
deriving DecidableEq, Repr

/-- Lines 110-111 of generate-summary.js: `const test = tests[i] || {};
const meta = test.metadata || {}`. -/
def metaAt (tests : List TestDef) (i : Nat) : TestMeta :=
  match tests.get? i with
  | some t => t.metadata.getD {}
  | none => {}

/-- Lines 112-113: `const specs = meta.spec_requirements || ['unknown'];
const specKey = Array.isArray(specs) ? specs[0] : String(specs)`.  In this
model `spec_requirements`, when present, is always an array, so the
`String(specs)` arm is not taken; `specs[0]` of a present empty array is
`undefined`, which JS then coerces to the object key "undefined". -/
def specKeyAt (tests : List TestDef) (i : Nat) : List Char :=
  match (metaAt tests i).spec_requirements with
  | some [] => "undefined".toList
  | some (s :: _) => s
  | none => "unknown".toList

/-- Line 117: `meta.requirement || ''`. -/
def reqAt (tests : List TestDef) (i : Nat) : List Char :=
  (metaAt tests i).requirement.getD []

/-- C5: the correlated pair at index i is derived from T[i] when i is in
range (its first spec requirement and its requirement text), and from the
synthetic record { groupKey: "unknown", requirementText: "" } otherwise;
the correlator never mutates either collection (it is a pure fold in this
embedding). -/
theorem correlator_pairing (T : List TestDef) (i : Nat) :
    (T.length ≤ i → specKeyAt T i = "unknown".toList ∧ reqAt T i = []) ∧
    (∀ h : i < T.length, ∀ s q, T.get ⟨i, h⟩ = ⟨some ⟨some [s], some q⟩⟩ →
      specKeyAt T i = s ∧ reqAt T i = q) := by
  constructor
  · intro hle
    have hnone : T.get? i = none := List.get?_eq_none.mpr hle
    unfold specKeyAt reqAt metaAt
    rw [hnone]
    exact ⟨rfl, rfl⟩
  · intro h s q heq
    have hsome : T.get? i = some (T.get ⟨i, h⟩) := List.get?_eq_get h
    unfold specKeyAt reqAt metaAt
    rw [hsome, heq]
    exact ⟨rfl, rfl⟩

/-- A concrete definition record for the correlator witness. -/
def tdefW : TestDef :=
  { metadata := some { spec_requirements := some ["tone".toList]
                       requirement := some "req1".toList } }

theorem correlator_pairing_w :
    specKeyAt [tdefW] 0 = "tone".toList ∧ reqAt [tdefW] 0 = "req1".toList ∧
    specKeyAt [tdefW] 3 = "unknown".toList ∧ reqAt [tdefW] 3 = [] :=
  ⟨((correlator_pairing [tdefW] 0).2 (by decide) ("tone".toList) ("req1".toList) rfl).1,
   ((correlator_pairing [tdefW] 0).2 (by decide) ("tone".toList) ("req1".toList) rfl).2,
   ((correlator_pairing [tdefW] 3).1 (by decide)).1,
   ((correlator_pairing [tdefW] 3).1 (by decide)).2⟩

/-- One case entry pushed in line 117 of generate-summary.js. -/
structure CaseInfo where
  index : Nat
  success : Bool
  requirement : List Char
deriving DecidableEq, Repr

/-- One `bySpec[specKey]` bucket: `{ pass, fail, cases }`. -/
structure SpecStat where
  pass : Nat := 0
  fail : Nat := 0
  cases : List CaseInfo := []
deriving DecidableEq, Repr

/-- Update-or-create for the `bySpec` object, preserving first-seen key
order (JS object insertion order). -/
def updateSpec (key : List Char) (f : SpecStat → SpecStat) :
    List (List Char × SpecStat) → List (List Char × SpecStat)
  | [] => [(key, f {})]
  | e :: rest => if e.1 = key then (e.1, f e.2) :: rest else e :: updateSpec key f rest

/-- The body of `results.forEach((r, i) => ...)` in generate-summary.js
lines 109-118. -/
def foldCase (tests : List TestDef) (acc : List (List Char × SpecStat))
    (ir : Nat × ResultEntry) : List (List Char × SpecStat) :=
  updateSpec (specKeyAt tests ir.1)
    (fun s =>
      { pass := s.pass + (if verdictPass ir.2 then 1 else 0)
        fail := s.fail + (if verdictPass ir.2 then 0 else 1)
        cases := s.cases ++ [⟨ir.1 + 1, verdictPass ir.2, reqAt tests ir.1⟩] }) acc

/-- The whole grouping fold of generate-summary.js. -/
def aggregate (tests : List TestDef) (results : List ResultEntry) :
    List (List Char × SpecStat) :=
  results.enum.foldl (foldCase tests) []

/-- Total of `pass + fail` over all groups. -/
def sumPF (l : List (List Char × SpecStat)) : Nat :=
  (l.map (fun e => e.2.pass + e.2.fail)).sum

theorem updateSpec_pres (key : List Char) (f : SpecStat → SpecStat)
    (hf : ∀ s : SpecStat, s.pass + s.fail = s.cases.length →
      (f s).pass + (f s).fail = (f s).cases.length) :
    ∀ acc : List (List Char × SpecStat),
      (∀ e ∈ acc, e.2.pass + e.2.fail = e.2.cases.length) →
      ∀ e ∈ updateSpec key f acc, e.2.pass + e.2.fail = e.2.cases.length := by
  intro acc
  induction acc with
  | nil =>
    intro _ e he
    simp only [updateSpec, List.mem_singleton] at he
    rw [he]
    exact hf {} rfl
  | cons x rest ih =>
    intro hacc e he
    rw [updateSpec] at he
    by_cases hx : x.1 = key
    · rw [if_pos hx] at he
      rcases List.mem_cons.mp he with rfl | hrest
      · exact hf x.2 (hacc x (List.mem_cons_self x rest))
      · exact hacc e (List.mem_cons_of_mem x hrest)
    · rw [if_neg hx] at he
      rcases List.mem_cons.mp he with rfl | hrest
      · exact hacc e (List.mem_cons_self e rest)
      · exact ih (fun e2 he2 => hacc e2 (List.mem_cons_of_mem x he2)) e hrest

theorem updateSpec_sum (key : List Char) (f : SpecStat → SpecStat)
    (hf : ∀ s : SpecStat, (f s).pass + (f s).fail = s.pass + s.fail + 1) :
    ∀ acc : List (List Char × SpecStat), sumPF (updateSpec key f acc) = sumPF acc + 1 := by
  intro acc
  induction acc with
  | nil =>
    show sumPF [(key, f {})] = sumPF [] + 1
    simp [sumPF, hf]
  | cons x rest ih =>
    rw [updateSpec]
    by_cases hx : x.1 = key
    · rw [if_pos hx]
      show sumPF ((x.1, f x.2) :: rest) = sumPF (x :: rest) + 1
      simp only [sumPF, List.map_cons, List.sum_cons, hf]
      omega
    · rw [if_neg hx]
      show sumPF (x :: updateSpec key f rest) = sumPF (x :: rest) + 1
      simp only [sumPF, List.map_cons, List.sum_cons] at ih ⊢
      omega

theorem aggregate_loop (tests : List TestDef) :
    ∀ (l : List (Nat × ResultEntry)) (acc : List (List Char × SpecStat)),
      (∀ e ∈ acc, e.2.pass + e.2.fail = e.2.cases.length) →
      (∀ e ∈ l.foldl (foldCase tests) acc, e.2.pass + e.2.fail = e.2.cases.length) ∧
      sumPF (l.foldl (foldCase tests) acc) = sumPF acc + l.length := by
  intro l
  induction l with
  | nil => intro acc hacc; exact ⟨hacc, by simp⟩
  | cons p l ih =>
    intro acc hacc
    rw [List.foldl_cons]
    have hf1 : ∀ s : SpecStat, s.pass + s.fail = s.cases.length →
        (s.pass + (if verdictPass p.2 then 1 else 0)) +
          (s.fail + (if verdictPass p.2 then 0 else 1)) =
          (s.cases ++ [(⟨p.1 + 1, verdictPass p.2, reqAt tests p.1⟩ : CaseInfo)]).length := by
      intro s hs
      rw [List.length_append, ← hs]
      cases verdictPass p.2 <;> simp <;> omega
    have hinv1 : ∀ e ∈ foldCase tests acc p, e.2.pass + e.2.fail = e.2.cases.length := by
      unfold foldCase
      exact updateSpec_pres _ _ (fun s hs => hf1 s hs) acc hacc
    obtain ⟨h1, h2⟩ := ih (foldCase tests acc p) hinv1
    refine ⟨h1, ?_⟩
    rw [h2]
    have hsum : sumPF (foldCase tests acc p) = sumPF acc + 1 := by
      unfold foldCase
      refine updateSpec_sum _ _ ?_ acc
      intro s
      cases verdictPass p.2 <;> simp <;> omega
    rw [hsum]
    simp only [List.length_cons]
    omega

/-- C8: after folding all correlated pairs, every group's passCount plus
failCount equals the number of cases recorded for the group, and the sum
over all groups equals the number of result entries. -/
theorem aggregate_counts (tests : List TestDef) (results : List ResultEntry) :
    (∀ e ∈ aggregate tests results, e.2.pass + e.2.fail = e.2.cases.length) ∧
    sumPF (aggregate tests results) = results.length := by
  obtain ⟨h1, h2⟩ := aggregate_loop tests results.enum [] (by simp)
  refine ⟨h1, ?_⟩
  rw [show aggregate tests results = results.enum.foldl (foldCase tests) [] from rfl, h2]
  simp [sumPF, List.enum_length]

/-- The mutually exclusive overall-rate outcome of getRecommendations in
generate-summary.js (lines 39-51): the zero-total early return, or one of
the three pass-rate buckets.  The final arm mirrors the dead
`else if (passRate >= 70)` guard: inside the else of `passRate < 70` it
always holds, so `noTests` is unreachable there. -/
inductive OverallRec where
  | noTests
  | lowPass
  | moderate
  | goodBaseline
deriving DecidableEq, Repr

/-- The overall bucket chosen by getRecommendations, with the pass rate
computed exactly over the rationals: `(totalPass / total) * 100`. -/
def overallRecommendation (totalPass totalFail : Nat) : OverallRec :=
  if totalPass + totalFail = 0 then OverallRec.noTests
  else
    if ((totalPass : ℚ) / ((totalPass : ℚ) + (totalFail : ℚ))) * 100 < 40 then
      OverallRec.lowPass
    else if ((totalPass : ℚ) / ((totalPass : ℚ) + (totalFail : ℚ))) * 100 < 70 then
      OverallRec.moderate
    else if 70 ≤ ((totalPass : ℚ) / ((totalPass : ℚ) + (totalFail : ℚ))) * 100 then
      OverallRec.goodBaseline
    else OverallRec.noTests

/-- C6: with at least one test, the three overall buckets are mutually
exclusive and characterized by rate < 40, 40 ≤ rate < 70 and 70 ≤ rate;
in particular rate exactly 40 is moderate and rate exactly 70 is good. -/
theorem recommendation_buckets (p f : Nat) (h : 0 < p + f) :
    (overallRecommendation p f = OverallRec.lowPass ↔
      ((p : ℚ) / ((p : ℚ) + (f : ℚ))) * 100 < 40) ∧
    (overallRecommendation p f = OverallRec.moderate ↔
      40 ≤ ((p : ℚ) / ((p : ℚ) + (f : ℚ))) * 100 ∧
        ((p : ℚ) / ((p : ℚ) + (f : ℚ))) * 100 < 70) ∧
    (overallRecommendation p f = OverallRec.goodBaseline ↔
      70 ≤ ((p : ℚ) / ((p : ℚ) + (f : ℚ))) * 100) := by
  unfold overallRecommendation
  have hne : ¬ (p + f = 0) := by omega
  rw [if_neg hne]
  by_cases h1 : ((p : ℚ) / ((p : ℚ) + (f : ℚ))) * 100 < 40
  · rw [if_pos h1]
    refine ⟨⟨fun _ => h1, fun _ => rfl⟩, ⟨fun hh => ?_, fun hh => ?_⟩,
      ⟨fun hh => ?_, fun hh => ?_⟩⟩
    · exact absurd hh (by decide)
    · exact absurd hh.1 (not_le.mpr h1)
    · exact absurd hh (by decide)
    · exact absurd hh (not_le.mpr (by linarith))
  · by_cases h2 : ((p : ℚ) / ((p : ℚ) + (f : ℚ))) * 100 < 70
    · rw [if_neg h1, if_pos h2]
      refine ⟨⟨fun hh => ?_, fun hh => ?_⟩, ⟨fun _ => ⟨not_lt.mp h1, h2⟩, fun _ => rfl⟩,
        ⟨fun hh => ?_, fun hh => ?_⟩⟩
      · exact absurd hh (by decide)
      · exact absurd hh h1
      · exact absurd hh (by decide)
      · exact absurd hh (not_le.mpr h2)
    · rw [if_neg h1, if_neg h2, if_pos (not_lt.mp h2)]
      refine ⟨⟨fun hh => ?_, fun hh => ?_⟩, ⟨fun hh => ?_, fun hh => ?_⟩,
        ⟨fun _ => not_lt.mp h2, fun _ => rfl⟩⟩
      · exact absurd hh (by decide)
      · exact absurd hh h1
      · exact absurd hh (by decide)
      · exact absurd hh.2 h2

theorem recommendation_buckets_w :
    0 < 2 + 3 ∧ ((2 : ℚ) / ((2 : ℚ) + (3 : ℚ))) * 100 = 40 ∧
    overallRecommendation 2 3 = OverallRec.moderate ∧
    0 < 7 + 3 ∧ ((7 : ℚ) / ((7 : ℚ) + (3 : ℚ))) * 100 = 70 ∧
    overallRecommendation 7 3 = OverallRec.goodBaseline :=
  ⟨by norm_num, by norm_num,
   ((recommendation_buckets 2 3 (by norm_num)).2.1).mpr (by norm_num),
   by norm_num, by norm_num,
   ((recommendation_buckets 7 3 (by norm_num)).2.2).mpr (by norm_num)⟩
